import Mathlib

/-!
# Turing machine engine of `turing.cpp`

A shallow embedding of the execution engine found in `main` of `src/turing.cpp`:
the tape array `configuration`, the rule table `Rules`, the per-iteration step
(lines 260-309) and the extraction of the final configuration (lines 311-337).

Modelling conventions.
* C++ `int` values are `Int`.  The only arithmetic performed on them is
  `head_index ± 1`, `j ± 1` and `ix ± 3` on indices that were just used to
  subscript a 41-cell array, so no 32-bit overflow can occur before an
  out-of-bounds access has already been reported.
* A subscript outside an array, and a read of a variable that was never
  assigned, have no defined result in C++; the embedding reports them as a
  `Fault` instead of a value.
* Window handling, drawing (`move_tape`, `create_tape`, ...), the `step`
  counter and console output carry no engine state and are left out; the
  printed final configuration is returned as a list.
-/

namespace TuringSFML

/-- Source: `int screen_cells = 21;` -/
def screen_cells : Int := 21

/-- Source: `int offscreen_cells = 20;` -/
def offscreen_cells : Int := 20

/-- Source: `int total_cells = screen_cells + offscreen_cells;` -/
def total_cells : Int := screen_cells + offscreen_cells

/-- One row of `int Rules[R][7]`: column 0 is the rule number, columns 1-3 the
(write, move, next) triple for symbol 0, columns 4-6 the triple for symbol 1. -/
abbrev Row := Fin 7 → Int

/-- The hard-coded table `int Rules[4][7]`. -/
def Rules : List Row :=
  [ ![0,      1, 1, 1,        1, 0, 1],
    ![1,      1, 0, 0,        0, 0, 2],
    ![2,      1, 1, -1,       1, 0, 3],
    ![3,      1, 1, 3,        0, 1, 0] ]

/-- Ways in which a C++ statement of the engine can have no defined result. -/
inductive Fault where
  /-- Subscript `configuration[i]` with `i` outside `[0, total_cells)` -/
  | tapeIndex (i : Int)
  /-- Subscript `Rules[r]` with `r` not a row of the table -/
  | ruleIndex (r : Int)
  /-- Read of an update variable that was never assigned -/
  | uninitialised
deriving DecidableEq

/-- Outcome of a piece of the program: a value, or the fault that occurred. -/
inductive Outcome (α : Type) where
  | ok (a : α)
  | fault (f : Fault)
deriving DecidableEq

/-- The variables of `main` that the engine reads and writes.  The three
update variables are declared without an initialiser, hence `none` at start. -/
structure State where
  head_index : Int
  rule_index : Int
  configuration : List Int
  new_head_index : Option Int
  new_rule_index : Option Int
  new_configuration : Option (List Int)
deriving DecidableEq

/-- Subscript read `configuration[i]`. -/
def readCell (configuration : List Int) (i : Int) : Outcome Int :=
  if 0 ≤ i ∧ i < total_cells then
    match configuration[i.toNat]? with
    | some e => .ok e
    | none => .fault (.tapeIndex i)
  else .fault (.tapeIndex i)

/-- Subscript write `configuration[i] = v`. -/
def writeCell (configuration : List Int) (i : Int) (v : Int) : Outcome (List Int) :=
  if 0 ≤ i ∧ i < total_cells ∧ i.toNat < configuration.length then
    .ok (configuration.set i.toNat v)
  else .fault (.tapeIndex i)

/-- Subscript `Rules[r]`, selecting a row of the table. -/
def ruleRow (rules : List Row) (r : Int) : Outcome Row :=
  if 0 ≤ r then
    match rules[r.toNat]? with
    | some row => .ok row
    | none => .fault (.ruleIndex r)
  else .fault (.ruleIndex r)

/-- Body of one symbol branch (lines 267-282 with columns 1,2,3; lines 287-302
with columns 4,5,6): copy the tape into `new_configuration`, write, choose the
new head by two independent tests of the move entry, fetch the next rule. -/
def symbolBranch (rules : List Row) (s : State) (w m n : Fin 7) : Outcome State :=
  match ruleRow rules s.rule_index with
  | .fault f => .fault f
  | .ok row =>
    match writeCell s.configuration s.head_index (row w) with
    | .fault f => .fault f
    | .ok nc =>
      let nh₀ := if row m = 0 then some (s.head_index + 1) else s.new_head_index
      let nh₁ := if row m = 1 then some (s.head_index - 1) else nh₀
      .ok { s with new_configuration := some nc,
                   new_head_index := nh₁,
                   new_rule_index := some (row n) }

/-- The `// update` block, lines 306-308. -/
def update (s : State) : Outcome State :=
  match s.new_head_index, s.new_rule_index, s.new_configuration with
  | some h, some r, some c =>
    .ok { s with head_index := h, rule_index := r, configuration := c }
  | _, _, _ => .fault .uninitialised

/-- A guarded block `if (configuration[head_index] == sym) { ... }`. -/
def symbolTest (rules : List Row) (s : State) (sym : Int) (w m n : Fin 7) : Outcome State :=
  match readCell s.configuration s.head_index with
  | .fault f => .fault f
  | .ok e => if e = sym then symbolBranch rules s w m n else .ok s

/-- One pass through lines 260-309: `if (rule_index != -1) { ... }`. -/
def step (rules : List Row) (s : State) : Outcome State :=
  if s.rule_index ≠ -1 then
    match symbolTest rules s 0 1 2 3 with
    | .fault f => .fault f
    | .ok s₁ =>
      match symbolTest rules s₁ 1 4 5 6 with
      | .fault f => .fault f
      | .ok s₂ => update s₂
  else .ok s

/-- The variables as initialised on lines 229-242. -/
def init : State :=
  { head_index := Int.tdiv (total_cells - 1) 2
    rule_index := 0
    configuration := List.replicate total_cells.toNat 0
    new_head_index := none
    new_rule_index := none
    new_configuration := none }

/-- The state after `n` passes through the step block, starting from `s`. -/
def iter (rules : List Row) : Nat → State → Outcome State
  | 0, s => .ok s
  | n + 1, s =>
    match iter rules n s with
    | .fault f => .fault f
    | .ok t => step rules t

/-- Column `k + 3c` of a row: entry `k` (1 = write, 2 = move, 3 = next rule) of
the triple for symbol `c`, that is columns 1, 2, 3 for `c = 0` and columns
4, 5, 6 for `c = 1`. -/
def entry (row : Row) (k : Fin 4) (c : Fin 2) : Int :=
  row ⟨k.val + 3 * c.val, by omega⟩

/-- First scan of the halted block, lines 315-323: starting at `j`, advance
while the cell read is 0.  The guard repeats the bound test of `readCell`, so
that the recursion is visibly bounded by the array. -/
def scanUp (configuration : List Int) (j : Int) : Outcome Int :=
  if 0 ≤ j ∧ j < total_cells then
    match readCell configuration j with
    | .fault f => .fault f
    | .ok element => if element = 0 then scanUp configuration (j + 1) else .ok j
  else .fault (.tapeIndex j)
termination_by (total_cells - j).toNat
decreasing_by omega

/-- Second scan of the halted block, lines 325-333: starting at `j`, step
down while the cell read is 0. -/
def scanDown (configuration : List Int) (j : Int) : Outcome Int :=
  if 0 ≤ j ∧ j < total_cells then
    match readCell configuration j with
    | .fault f => .fault f
    | .ok element => if element = 0 then scanDown configuration (j - 1) else .ok j
  else .fault (.tapeIndex j)
termination_by (j + 1).toNat
decreasing_by omega

/-- The printing loop `for (int i = ...; i < stop; i++) cout << configuration[i]`,
returning the symbols printed, in order. -/
def printLoop (configuration : List Int) (i stop : Int) : Outcome (List Int) :=
  if i < stop then
    match readCell configuration i with
    | .fault f => .fault f
    | .ok e =>
      match printLoop configuration (i + 1) stop with
      | .fault f => .fault f
      | .ok rest => .ok (e :: rest)
  else .ok []
termination_by (stop - i).toNat
decreasing_by omega

/-- What the halted block computes: the two scan results and the symbols printed. -/
structure Extraction where
  ix_start : Int
  ix_end : Int
  printed : List Int
deriving DecidableEq

/-- The halted block, lines 314-337. -/
def extract (configuration : List Int) : Outcome Extraction :=
  match scanUp configuration 0 with
  | .fault f => .fault f
  | .ok ix_start =>
    match scanDown configuration (total_cells - 1) with
    | .fault f => .fault f
    | .ok ix_end =>
      match printLoop configuration (ix_start - 3) (ix_end + 3) with
      | .fault f => .fault f
      | .ok printed => .ok { ix_start := ix_start, ix_end := ix_end, printed := printed }

/-- The cells of the closed index interval `[a, b]` of a tape, in index order. -/
def cellsOfClosedInterval (configuration : List Int) (a b : Int) : List (Option Int) :=
  (List.range (b + 1 - a).toNat).map fun k => configuration[(a + k).toNat]?

/-- The update variables hold exactly what the `// update` block last copied. -/
def Synced (s : State) : Prop :=
  s.new_head_index = some s.head_index ∧
  s.new_rule_index = some s.rule_index ∧
  s.new_configuration = some s.configuration

/-- Every write and move entry is 0 or 1 and every next-rule entry is -1 or a
row index of the table. -/
def ValidTable (rules : List Row) : Prop :=
  ∀ row ∈ rules,
    (row 1 = 0 ∨ row 1 = 1) ∧ (row 4 = 0 ∨ row 4 = 1) ∧
    (row 2 = 0 ∨ row 2 = 1) ∧ (row 5 = 0 ∨ row 5 = 1) ∧
    (row 3 = -1 ∨ (0 ≤ row 3 ∧ row 3 < rules.length)) ∧
    (row 6 = -1 ∨ (0 ≤ row 6 ∧ row 6 < rules.length))

/-- Checks a Boolean test on the start state and on each of the next `n`
states of the run, failing if a step faults. -/
def holdsAlong (p : State → Bool) (rules : List Row) : Nat → State → Bool
  | 0, s => p s
  | n + 1, s =>
    p s && (match step rules s with
            | .ok t => holdsAlong p rules n t
            | .fault _ => false)

/-- The variables at the moment the hard-coded run halts. -/
def haltedState : State :=
  { head_index := 29
    rule_index := -1
    configuration :=
      [0, 0, 0, 0, 0, 0, 0, 0, 0, 0, 0, 0, 0, 0, 0, 0, 0,
       1, 1, 1, 1, 1, 1, 1, 1, 1, 1, 1, 1, 0, 1,
       0, 0, 0, 0, 0, 0, 0, 0, 0, 0]
    new_head_index := some 29
    new_rule_index := some (-1)
    new_configuration := some
      [0, 0, 0, 0, 0, 0, 0, 0, 0, 0, 0, 0, 0, 0, 0, 0, 0,
       1, 1, 1, 1, 1, 1, 1, 1, 1, 1, 1, 1, 0, 1,
       0, 0, 0, 0, 0, 0, 0, 0, 0, 0] }

/-- A table of the shape `int Rules[4][7]` whose row 0 moves right (head index
decreasing) forever; rows 1-3 are those of `Rules` and are never entered. -/
def alwaysRight : List Row :=
  [ ![0,      0, 1, 0,        0, 1, 0],
    ![1,      1, 0, 0,        0, 0, 2],
    ![2,      1, 1, -1,       1, 0, 3],
    ![3,      1, 1, 3,        0, 1, 0] ]

/-- A table of the shape `int Rules[4][7]` whose row 0 halts at once without
writing a non-blank symbol; rows 1-3 are those of `Rules`. -/
def haltBlank : List Row :=
  [ ![0,      0, 0, -1,       0, 0, -1],
    ![1,      1, 0, 0,        0, 0, 2],
    ![2,      1, 1, -1,       1, 0, 3],
    ![3,      1, 1, 3,        0, 1, 0] ]

/-- A table of the shape `int Rules[4][7]` whose row 0 writes the symbol 2 and
moves left, and whose row 1 moves back right onto that cell; rows 2-3 are
those of `Rules`. -/
def writesTwo : List Row :=
  [ ![0,      2, 0, 1,        0, 0, 0],
    ![1,      0, 1, 1,        0, 1, 1],
    ![2,      1, 1, -1,       1, 0, 3],
    ![3,      1, 1, 3,        0, 1, 0] ]

/-- The state reached by `writesTwo` after two steps: the head is back on the
cell that holds the symbol 2. -/
def onTwo : State :=
  { head_index := 20
    rule_index := 1
    configuration := (List.replicate 41 0).set 20 2
    new_head_index := some 20
    new_rule_index := some 1
    new_configuration := some ((List.replicate 41 0).set 20 2) }

/-- The state in which `haltBlank` halts: one step, nothing but blanks written. -/
def blankHalted : State :=
  { head_index := 21
    rule_index := -1
    configuration := List.replicate 41 0
    new_head_index := some 21
    new_rule_index := some (-1)
    new_configuration := some (List.replicate 41 0) }

/-- The state of `alwaysRight` after 21 steps: the head has left the array. -/
def offTape : State :=
  { head_index := -1
    rule_index := 0
    configuration := List.replicate 41 0
    new_head_index := some (-1)
    new_rule_index := some 0
    new_configuration := some (List.replicate 41 0) }

/-- The state of the hard-coded run after its first step. -/
def afterOne : State :=
  { head_index := 19
    rule_index := 1
    configuration := (List.replicate 41 0).set 20 1
    new_head_index := some 19
    new_rule_index := some 1
    new_configuration := some ((List.replicate 41 0).set 20 1) }

set_option maxRecDepth 100000

/-! ## Array subscripts -/

theorem readCell_ok_iff {cfg : List Int} {i e : Int} :
    readCell cfg i = .ok e ↔ (0 ≤ i ∧ i < total_cells) ∧ cfg[i.toNat]? = some e := by
  unfold readCell
  by_cases h : 0 ≤ i ∧ i < total_cells
  · rw [if_pos h]
    cases hc : cfg[i.toNat]? <;> simp [h]
  · rw [if_neg h]
    simp [h]

theorem readCell_outside {cfg : List Int} {i : Int} (h : i < 0 ∨ total_cells ≤ i) :
    readCell cfg i = .fault (.tapeIndex i) := by
  unfold readCell
  rw [if_neg (by omega)]

theorem readCell_inside (cfg : List Int) (i : Int) (h : 0 ≤ i ∧ i < total_cells)
    (hlen : cfg.length = total_cells.toNat) :
    ∃ e, readCell cfg i = .ok e ∧ cfg[i.toNat]? = some e := by
  have hlt : i.toNat < cfg.length := by omega
  refine ⟨cfg[i.toNat], ?_, List.getElem?_eq_getElem hlt⟩
  rw [readCell_ok_iff]
  exact ⟨h, List.getElem?_eq_getElem hlt⟩

theorem writeCell_ok_iff {cfg nc : List Int} {i v : Int} :
    writeCell cfg i v = .ok nc ↔
      (0 ≤ i ∧ i < total_cells ∧ i.toNat < cfg.length) ∧ nc = cfg.set i.toNat v := by
  unfold writeCell
  by_cases h : 0 ≤ i ∧ i < total_cells ∧ i.toNat < cfg.length
  · rw [if_pos h]
    simp only [Outcome.ok.injEq, h, and_self, true_and]
    exact eq_comm
  · rw [if_neg h]
    simp [h]

theorem writeCell_of_readCell {cfg : List Int} {i e : Int} (v : Int)
    (h : readCell cfg i = .ok e) : writeCell cfg i v = .ok (cfg.set i.toNat v) := by
  rw [readCell_ok_iff] at h
  rw [writeCell_ok_iff]
  have hlt : i.toNat < cfg.length := (List.getElem?_eq_some.mp h.2).1
  exact ⟨⟨h.1.1, h.1.2, hlt⟩, rfl⟩

theorem ruleRow_ok_iff {rules : List Row} {r : Int} {row : Row} :
    ruleRow rules r = .ok row ↔ 0 ≤ r ∧ rules[r.toNat]? = some row := by
  unfold ruleRow
  by_cases h : 0 ≤ r
  · rw [if_pos h]
    cases hc : rules[r.toNat]? <;> simp [h]
  · rw [if_neg h]
    simp [h]

theorem ruleRow_inside {rules : List Row} {r : Int}
    (h : 0 ≤ r ∧ r < rules.length) : ∃ row, ruleRow rules r = .ok row ∧ row ∈ rules := by
  have hlt : r.toNat < rules.length := by omega
  refine ⟨rules[r.toNat], ?_, List.getElem_mem hlt⟩
  rw [ruleRow_ok_iff]
  exact ⟨h.1, List.getElem?_eq_getElem hlt⟩

/-! ## The step block -/

theorem symbolBranch_eq {rules : List Row} {s : State} {row : Row} {e : Int}
    (w m n : Fin 7)
    (hrow : ruleRow rules s.rule_index = .ok row)
    (hcell : readCell s.configuration s.head_index = .ok e) :
    symbolBranch rules s w m n =
      .ok { s with
            new_configuration := some (s.configuration.set s.head_index.toNat (row w))
            new_head_index :=
              if row m = 1 then some (s.head_index - 1)
              else if row m = 0 then some (s.head_index + 1) else s.new_head_index
            new_rule_index := some (row n) } := by
  unfold symbolBranch
  rw [hrow]
  simp only [writeCell_of_readCell (row w) hcell]

theorem symbolBranch_fault {rules : List Row} {s : State} {f : Fault}
    (w m n : Fin 7) (hrow : ruleRow rules s.rule_index = .fault f) :
    symbolBranch rules s w m n = .fault f := by
  unfold symbolBranch
  rw [hrow]

theorem update_synced {s t : State} (h : update s = .ok t) : Synced t := by
  unfold update at h
  split at h
  · cases h
    rename_i hh hr hc
    exact ⟨hh, hr, hc⟩
  · cases h

theorem update_of_synced {s : State} (h : Synced s) : update s = .ok s := by
  obtain ⟨hd, r, c, nh, nr, nc⟩ := s
  obtain ⟨h1, h2, h3⟩ := h
  simp only at h1 h2 h3
  subst h1 h2 h3
  rfl

theorem step_halted {rules : List Row} {s : State} (h : s.rule_index = -1) :
    step rules s = .ok s := by
  unfold step
  rw [if_neg (by simpa using h)]

theorem step_fault {rules : List Row} {s : State} {f : Fault}
    (hrun : s.rule_index ≠ -1)
    (hcell : readCell s.configuration s.head_index = .fault f) :
    step rules s = .fault f := by
  unfold step symbolTest
  rw [if_pos hrun, hcell]

theorem step_other {rules : List Row} {s : State} {c : Int}
    (hrun : s.rule_index ≠ -1)
    (hcell : readCell s.configuration s.head_index = .ok c)
    (h0 : c ≠ 0) (h1 : c ≠ 1) :
    step rules s = update s := by
  unfold step symbolTest
  rw [if_pos hrun, hcell]
  simp only [if_neg h0, hcell, if_neg h1]

theorem step_zero {rules : List Row} {s : State} {row : Row}
    (hrun : s.rule_index ≠ -1)
    (hrow : ruleRow rules s.rule_index = .ok row)
    (hcell : readCell s.configuration s.head_index = .ok 0) :
    step rules s =
      update { s with
            new_configuration := some (s.configuration.set s.head_index.toNat (row 1))
            new_head_index :=
              if row 2 = 1 then some (s.head_index - 1)
              else if row 2 = 0 then some (s.head_index + 1) else s.new_head_index
            new_rule_index := some (row 3) } := by
  unfold step symbolTest
  rw [if_pos hrun, hcell]
  simp only [if_true, symbolBranch_eq 1 2 3 hrow hcell, hcell]
  simp

theorem step_one {rules : List Row} {s : State} {row : Row}
    (hrun : s.rule_index ≠ -1)
    (hrow : ruleRow rules s.rule_index = .ok row)
    (hcell : readCell s.configuration s.head_index = .ok 1) :
    step rules s =
      update { s with
            new_configuration := some (s.configuration.set s.head_index.toNat (row 4))
            new_head_index :=
              if row 5 = 1 then some (s.head_index - 1)
              else if row 5 = 0 then some (s.head_index + 1) else s.new_head_index
            new_rule_index := some (row 6) } := by
  unfold step symbolTest
  rw [if_pos hrun, hcell]
  simp [hcell, symbolBranch_eq 4 5 6 hrow hcell]

theorem step_zero_fault {rules : List Row} {s : State} {f : Fault}
    (hrun : s.rule_index ≠ -1)
    (hrow : ruleRow rules s.rule_index = .fault f)
    (hcell : readCell s.configuration s.head_index = .ok 0) :
    step rules s = .fault f := by
  unfold step symbolTest
  rw [if_pos hrun, hcell]
  simp only [if_true, symbolBranch_fault 1 2 3 hrow]

theorem step_one_fault {rules : List Row} {s : State} {f : Fault}
    (hrun : s.rule_index ≠ -1)
    (hrow : ruleRow rules s.rule_index = .fault f)
    (hcell : readCell s.configuration s.head_index = .ok 1) :
    step rules s = .fault f := by
  unfold step symbolTest
  rw [if_pos hrun, hcell]
  simp [hcell, symbolBranch_fault 4 5 6 hrow]

theorem update_ok {u t : State} (h : update u = .ok t) :
    u.new_head_index = some t.head_index ∧
    u.new_rule_index = some t.rule_index ∧
    u.new_configuration = some t.configuration := by
  unfold update at h
  split at h
  · cases h
    rename_i hh hr hc
    exact ⟨hh, hr, hc⟩
  · cases h

/-- Case analysis of a successful step from a running state: the symbol-0
branch alone, the symbol-1 branch alone, or neither branch. -/
theorem step_ok_cases {rules : List Row} {s t : State}
    (hrun : s.rule_index ≠ -1) (h : step rules s = .ok t) :
    (∃ row, ruleRow rules s.rule_index = .ok row ∧
        readCell s.configuration s.head_index = .ok 0 ∧
        t.configuration = s.configuration.set s.head_index.toNat (row 1) ∧
        t.rule_index = row 3 ∧
        some t.head_index =
          (if row 2 = 1 then some (s.head_index - 1)
           else if row 2 = 0 then some (s.head_index + 1) else s.new_head_index)) ∨
    (∃ row, ruleRow rules s.rule_index = .ok row ∧
        readCell s.configuration s.head_index = .ok 1 ∧
        t.configuration = s.configuration.set s.head_index.toNat (row 4) ∧
        t.rule_index = row 6 ∧
        some t.head_index =
          (if row 5 = 1 then some (s.head_index - 1)
           else if row 5 = 0 then some (s.head_index + 1) else s.new_head_index)) ∨
    (∃ c, readCell s.configuration s.head_index = .ok c ∧ c ≠ 0 ∧ c ≠ 1 ∧
        s.new_head_index = some t.head_index ∧
        s.new_rule_index = some t.rule_index ∧
        s.new_configuration = some t.configuration) := by
  cases hcell : readCell s.configuration s.head_index with
  | fault f =>
    rw [step_fault hrun hcell] at h
    cases h
  | ok c =>
    by_cases h0 : c = 0
    · subst h0
      cases hrow : ruleRow rules s.rule_index with
      | fault f =>
        rw [step_zero_fault hrun hrow hcell] at h
        cases h
      | ok row =>
        rw [step_zero hrun hrow hcell] at h
        obtain ⟨hh, hr, hc⟩ := update_ok h
        simp only [Option.some.injEq] at hr hc
        exact Or.inl ⟨row, rfl, rfl, hc.symm, hr.symm, hh.symm⟩
    · by_cases h1 : c = 1
      · subst h1
        cases hrow : ruleRow rules s.rule_index with
        | fault f =>
          rw [step_one_fault hrun hrow hcell] at h
          cases h
        | ok row =>
          rw [step_one hrun hrow hcell] at h
          obtain ⟨hh, hr, hc⟩ := update_ok h
          simp only [Option.some.injEq] at hr hc
          exact Or.inr (Or.inl ⟨row, rfl, rfl, hc.symm, hr.symm, hh.symm⟩)
      · rw [step_other hrun hcell h0 h1] at h
        obtain ⟨hh, hr, hc⟩ := update_ok h
        exact Or.inr (Or.inr ⟨c, rfl, h0, h1, hh, hr, hc⟩)

theorem step_running_synced {rules : List Row} {s t : State}
    (hrun : s.rule_index ≠ -1) (h : step rules s = .ok t) : Synced t := by
  unfold step at h
  rw [if_pos hrun] at h
  split at h
  · cases h
  · split at h
    · cases h
    · exact update_synced h

/-! ## Runs -/

theorem init_cell : readCell init.configuration init.head_index = .ok 0 := by decide

theorem init_length : init.configuration.length = total_cells.toNat := by decide

theorem iter_succ {rules : List Row} {n : Nat} {s t : State}
    (h : iter rules (n + 1) s = .ok t) :
    ∃ u, iter rules n s = .ok u ∧ step rules u = .ok t := by
  simp only [iter] at h
  cases hu : iter rules n s with
  | fault f => rw [hu] at h; cases h
  | ok u => rw [hu] at h; exact ⟨u, rfl, h⟩

theorem iter_succ_left (rules : List Row) (n : Nat) (s : State) :
    iter rules (n + 1) s =
      match step rules s with
      | .fault f => .fault f
      | .ok t => iter rules n t := by
  induction n with
  | zero =>
    simp only [iter]
    cases step rules s <;> rfl
  | succ n ih =>
    rw [iter, ih]
    cases step rules s with
    | fault f => rfl
    | ok t => simp only [iter]

/-- Every state of a run is the initial one or has its update variables in
step with the engine variables; the tape keeps its `total_cells` cells. -/
theorem reach_inv {rules : List Row} {n : Nat} {s : State}
    (h : iter rules n init = .ok s) :
    s.configuration.length = total_cells.toNat ∧ (s = init ∨ Synced s) := by
  induction n generalizing s with
  | zero =>
    simp only [iter, Outcome.ok.injEq] at h
    subst h
    exact ⟨init_length, Or.inl rfl⟩
  | succ n ih =>
    obtain ⟨u, hu, hstep⟩ := iter_succ h
    obtain ⟨hlen, hsync⟩ := ih hu
    by_cases hrun : u.rule_index = -1
    · rw [step_halted hrun] at hstep
      cases hstep
      exact ⟨hlen, hsync⟩
    · refine ⟨?_, Or.inr (step_running_synced hrun hstep)⟩
      rcases step_ok_cases hrun hstep with ⟨row, -, -, hc, -, -⟩ | ⟨row, -, -, hc, -, -⟩ |
        ⟨c, hcell, h0, -, -, -, hc⟩
      · rw [hc, List.length_set]; exact hlen
      · rw [hc, List.length_set]; exact hlen
      · rcases hsync with rfl | hsync
        · rw [init_cell] at hcell
          cases hcell
          exact absurd rfl h0
        · rw [hsync.2.2] at hc
          rw [← Option.some.inj hc]
          exact hlen

/-- Frame property of a step taken in a state of a run. -/
theorem frame_reachable {rules : List Row} {n : Nat} {s t : State}
    (hreach : iter rules n init = .ok s) (hstep : step rules s = .ok t)
    (i : Nat) (hi : (i : Int) ≠ s.head_index) :
    t.configuration[i]? = s.configuration[i]? := by
  obtain ⟨-, hsync⟩ := reach_inv hreach
  by_cases hrun : s.rule_index = -1
  · rw [step_halted hrun] at hstep
    cases hstep
    rfl
  · rcases step_ok_cases hrun hstep with ⟨row, -, hcell, hc, -, -⟩ | ⟨row, -, hcell, hc, -, -⟩ |
      ⟨c, hcell, h0, -, -, -, hc⟩
    · have hb := (readCell_ok_iff.mp hcell).1
      rw [hc, List.getElem?_set_ne (by omega)]
    · have hb := (readCell_ok_iff.mp hcell).1
      rw [hc, List.getElem?_set_ne (by omega)]
    · rcases hsync with rfl | hsync
      · rw [init_cell] at hcell
        cases hcell
        exact absurd rfl h0
      · rw [hsync.2.2] at hc
        rw [← Option.some.inj hc]

theorem untouched_blank {rules : List Row} {n : Nat} {s : State} {i : Nat}
    (hreach : iter rules n init = .ok s) (hi : (i : Int) < total_cells)
    (hnever : ∀ k < n, ∀ t, iter rules k init = .ok t → t.head_index ≠ i) :
    s.configuration[i]? = some 0 := by
  induction n generalizing s with
  | zero =>
    simp only [iter, Outcome.ok.injEq] at hreach
    subst hreach
    have : i < 41 := by
      have : total_cells = 41 := by decide
      omega
    simp only [init, List.getElem?_replicate]
    rw [if_pos]
    have : total_cells.toNat = 41 := by decide
    omega
  | succ n ih =>
    obtain ⟨u, hu, hstep⟩ := iter_succ hreach
    have hne : (i : Int) ≠ u.head_index := fun hEq => hnever n (Nat.lt_succ_self n) u hu hEq.symm
    rw [frame_reachable hu hstep i hne]
    exact ih hu fun k hk t ht => hnever k (Nat.lt_succ_of_lt hk) t ht

theorem holdsAlong_iter {p : State → Bool} {rules : List Row} {n : Nat} {s : State}
    (h : holdsAlong p rules n s = true) :
    ∀ k ≤ n, ∃ t, iter rules k s = .ok t ∧ p t = true := by
  induction n generalizing s with
  | zero =>
    intro k hk
    obtain rfl : k = 0 := by omega
    exact ⟨s, rfl, h⟩
  | succ n ih =>
    simp only [holdsAlong, Bool.and_eq_true] at h
    obtain ⟨hp, hrest⟩ := h
    intro k hk
    cases k with
    | zero => exact ⟨s, rfl, hp⟩
    | succ k =>
      rw [iter_succ_left]
      cases hst : step rules s with
      | fault f => rw [hst] at hrest; cases hrest
      | ok t =>
        rw [hst] at hrest
        exact ih hrest k (by omega)

/-! ## The halted block -/

theorem scanUp_finds_first {cfg : List Int} {lo : Nat} {v : Int}
    (hlo : (lo : Int) < total_cells)
    (hzero : ∀ i < lo, cfg[i]? = some 0)
    (hv : cfg[lo]? = some v) (hnz : v ≠ 0) (j : Nat) (hj : j ≤ lo) :
    scanUp cfg (j : Int) = .ok (lo : Int) := by
  generalize hd : lo - j = d
  induction d generalizing j with
  | zero =>
    obtain rfl : j = lo := by omega
    rw [scanUp, if_pos ⟨by omega, hlo⟩]
    have hr : readCell cfg (j : Int) = .ok v :=
      readCell_ok_iff.mpr ⟨⟨by omega, hlo⟩, by simpa using hv⟩
    simp only [hr, if_neg hnz]
  | succ d ih =>
    have hjl : j < lo := by omega
    rw [scanUp, if_pos ⟨by omega, by omega⟩]
    have hr : readCell cfg (j : Int) = .ok 0 :=
      readCell_ok_iff.mpr ⟨⟨by omega, by omega⟩, by simpa using hzero j hjl⟩
    simp only [hr, if_true]
    have := ih (j + 1) (by omega) (by omega)
    simpa using this

theorem scanDown_finds_last {cfg : List Int} {hi : Nat} {v : Int}
    (hzero : ∀ i : Nat, hi < i → (i : Int) < total_cells → cfg[i]? = some 0)
    (hv : cfg[hi]? = some v) (hnz : v ≠ 0) (j : Nat) (hj : hi ≤ j)
    (hjt : (j : Int) < total_cells) :
    scanDown cfg (j : Int) = .ok (hi : Int) := by
  generalize hd : j - hi = d
  induction d generalizing j with
  | zero =>
    obtain rfl : j = hi := by omega
    rw [scanDown, if_pos ⟨by omega, hjt⟩]
    have hr : readCell cfg (j : Int) = .ok v :=
      readCell_ok_iff.mpr ⟨⟨by omega, hjt⟩, by simpa using hv⟩
    simp only [hr, if_neg hnz]
  | succ d ih =>
    have hjl : hi < j := by omega
    rw [scanDown, if_pos ⟨by omega, hjt⟩]
    have hr : readCell cfg (j : Int) = .ok 0 :=
      readCell_ok_iff.mpr ⟨⟨by omega, hjt⟩, by simpa using hzero j hjl hjt⟩
    simp only [hr, if_true]
    have h1 := ih (j - 1) (by omega) (by omega) (by omega)
    have hc : ((j - 1 : Nat) : Int) = (j : Int) - 1 := by omega
    rw [hc] at h1
    exact h1

theorem printLoop_cells {cfg : List Int} (hlen : cfg.length = total_cells.toNat)
    (a b : Nat) (hb : (b : Int) ≤ total_cells) :
    ∃ out, printLoop cfg (a : Int) (b : Int) = .ok out ∧
      out.map some = (List.range (b - a)).map fun k => cfg[a + k]? := by
  generalize hd : b - a = d
  induction d generalizing a with
  | zero =>
    refine ⟨[], ?_, rfl⟩
    rw [printLoop, if_neg (by omega)]
  | succ d ih =>
    have hab : a < b := by omega
    obtain ⟨rest, hrest, hmap⟩ := ih (a + 1) (by omega)
    obtain ⟨e, he, hget⟩ := readCell_inside cfg (a : Int)
      ⟨by omega, by omega⟩ hlen
    refine ⟨e :: rest, ?_, ?_⟩
    · rw [printLoop, if_pos (by omega)]
      have hc : ((a + 1 : Nat) : Int) = (a : Int) + 1 := by omega
      rw [hc] at hrest
      simp only [he, hrest]
    · rw [List.range_succ_eq_map, List.map_cons, List.map_cons, List.map_map, hmap]
      have hg : cfg[a]? = some e := by simpa using hget
      simp only [Nat.add_zero, hg, List.cons.injEq, true_and]
      apply List.map_congr_left
      intro k _
      simp only [Function.comp, Nat.succ_eq_add_one]
      congr 1
      omega

/-- What the halted block does on every tape of `total_cells` cells whose
lowest and highest non-zero cells `lo`, `hi` leave room for the margin: the
scans return `lo` and `hi`, and the loop prints the `hi - lo + 6` cells of
`[lo - 3, hi + 2]`. -/
theorem extract_prints_half_open (cfg : List Int) (lo hi : Nat) (vlo vhi : Int)
    (hlen : cfg.length = total_cells.toNat)
    (hzlo : ∀ i < lo, cfg[i]? = some 0) (hvlo : cfg[lo]? = some vlo) (hnlo : vlo ≠ 0)
    (hzhi : ∀ i : Nat, hi < i → (i : Int) < total_cells → cfg[i]? = some 0)
    (hvhi : cfg[hi]? = some vhi) (hnhi : vhi ≠ 0)
    (hroom : 3 ≤ lo ∧ (hi : Int) + 3 ≤ total_cells) :
    ∃ out, extract cfg = .ok { ix_start := lo, ix_end := hi, printed := out } ∧
      out.map some = (List.range (hi + 3 - (lo - 3))).map fun k => cfg[lo - 3 + k]? := by
  have htot : total_cells = 41 := by decide
  have hlo41 : lo < cfg.length := (List.getElem?_eq_some.mp hvlo).1
  have hhi41 : hi < cfg.length := (List.getElem?_eq_some.mp hvhi).1
  have hup : scanUp cfg 0 = .ok (lo : Int) := by
    have hlo : (lo : Int) < total_cells := by omega
    have := scanUp_finds_first hlo hzlo hvlo hnlo 0 (by omega)
    simpa using this
  have hdown : scanDown cfg (total_cells - 1) = .ok (hi : Int) := by
    have := scanDown_finds_last hzhi hvhi hnhi 40 (by omega) (by omega)
    rw [htot]
    simpa using this
  obtain ⟨out, hout, hmap⟩ := printLoop_cells hlen (lo - 3) (hi + 3) (by omega)
  refine ⟨out, ?_, hmap⟩
  have h1 : ((lo - 3 : Nat) : Int) = (lo : Int) - 3 := by omega
  have h2 : ((hi + 3 : Nat) : Int) = (hi : Int) + 3 := by omega
  rw [h1, h2] at hout
  simp only [extract, hup, hdown, hout]

theorem scanUp_all_blank {cfg : List Int} (hlen : cfg.length = total_cells.toNat)
    (hall : ∀ x ∈ cfg, x = 0) (j : Nat) (hj : (j : Int) ≤ total_cells) :
    scanUp cfg (j : Int) = .fault (.tapeIndex total_cells) := by
  generalize hd : total_cells.toNat - j = d
  induction d generalizing j with
  | zero =>
    have hjt : (j : Int) = total_cells := by omega
    rw [scanUp, if_neg (by omega), hjt]
  | succ d ih =>
    rw [scanUp, if_pos ⟨by omega, by omega⟩]
    obtain ⟨e, he, hget⟩ := readCell_inside cfg (j : Int)
      ⟨by omega, by omega⟩ hlen
    have he0 : e = 0 := hall e (List.getElem?_mem hget)
    subst he0
    simp only [he, if_true]
    have := ih (j + 1) (by omega) (by omega)
    simpa using this

/-- The `// update` block applied to the outcome of a symbol branch whose move
entry is 0 or 1. -/
theorem update_branch (s : State) (nc : List Int) (mv nx : Int)
    (hm : mv = 0 ∨ mv = 1) :
    ∃ t, update { s with
            new_configuration := some nc
            new_head_index :=
              if mv = 1 then some (s.head_index - 1)
              else if mv = 0 then some (s.head_index + 1) else s.new_head_index
            new_rule_index := some nx } = .ok t ∧
      t.configuration = nc ∧
      t.head_index = (if mv = 0 then s.head_index + 1 else s.head_index - 1) ∧
      t.rule_index = nx := by
  rcases hm with hm | hm <;> subst hm <;> exact ⟨_, rfl, rfl, rfl, rfl⟩

/-! ## The claims -/

/-- C1: in a running configuration whose rule index selects the row `row`,
whose head is inside the tape array on a cell holding `c ∈ {0,1}`, and whose
selected move entry `Rules[s][2+3c]` is 0 or 1, one step succeeds, writes
`Rules[s][1+3c]` under the head, moves the head to `head_index + 1` for move
entry 0 and to `head_index - 1` for move entry 1, and sets `rule_index` to
`Rules[s][3+3c]`; the outcome is that of the branch for `c` alone. -/
theorem step_applies_selected_transition (rules : List Row) (s : State) (row : Row)
    (c : Fin 2)
    (hrun : s.rule_index ≠ -1)
    (hrow : 0 ≤ s.rule_index ∧ rules[s.rule_index.toNat]? = some row)
    (hhead : 0 ≤ s.head_index ∧ s.head_index < total_cells)
    (hcell : s.configuration[s.head_index.toNat]? = some (c.val : Int))
    (hmove : entry row 2 c = 0 ∨ entry row 2 c = 1) :
    ∃ t, step rules s = .ok t ∧
      t.configuration = s.configuration.set s.head_index.toNat (entry row 1 c) ∧
      t.head_index =
        (if entry row 2 c = 0 then s.head_index + 1 else s.head_index - 1) ∧
      t.rule_index = entry row 3 c := by
  have hr : ruleRow rules s.rule_index = .ok row := ruleRow_ok_iff.mpr hrow
  have hc : readCell s.configuration s.head_index = .ok (c.val : Int) :=
    readCell_ok_iff.mpr ⟨hhead, hcell⟩
  match c, hc, hmove with
  | 0, hc, hmove =>
    have hc0 : readCell s.configuration s.head_index = .ok 0 := hc
    have hm : row 2 = 0 ∨ row 2 = 1 := hmove
    rw [step_zero hrun hr hc0]
    exact update_branch s _ (row 2) (row 3) hm
  | 1, hc, hmove =>
    have hc1 : readCell s.configuration s.head_index = .ok 1 := hc
    have hm : row 5 = 0 ∨ row 5 = 1 := hmove
    rw [step_one hrun hr hc1]
    exact update_branch s _ (row 5) (row 6) hm

/-- C1 witness: the first step of the hard-coded table, which reads 0, writes
1, has move entry 1 and next rule 1. -/
theorem step_applies_selected_transition_witness :
    init.rule_index ≠ -1 ∧
    (0 ≤ init.rule_index ∧ Rules[init.rule_index.toNat]? = some ![0, 1, 1, 1, 1, 0, 1]) ∧
    (0 ≤ init.head_index ∧ init.head_index < total_cells) ∧
    init.configuration[init.head_index.toNat]? = some ((0 : Fin 2).val : Int) ∧
    ∃ t, step Rules init = .ok t ∧
      t.configuration =
        init.configuration.set init.head_index.toNat (entry ![0, 1, 1, 1, 1, 0, 1] 1 0) ∧
      t.head_index =
        (if entry ![0, 1, 1, 1, 1, 0, 1] 2 0 = 0 then init.head_index + 1
         else init.head_index - 1) ∧
      t.rule_index = entry ![0, 1, 1, 1, 1, 0, 1] 3 0 :=
  ⟨by decide, ⟨by decide, rfl⟩, by decide, by decide,
    step_applies_selected_transition Rules init ![0, 1, 1, 1, 1, 0, 1] 0
      (by decide) ⟨by decide, rfl⟩ (by decide) (by decide) (by decide)⟩

/-- C4: in a halted configuration (`rule_index = -1`) a further pass through the
step block succeeds and returns the very same state: head, rule index and
every tape cell are unchanged. -/
theorem halted_step_no_change (rules : List Row) (s : State)
    (hhalt : s.rule_index = -1) : step rules s = .ok s :=
  step_halted hhalt

/-- C4 witness: the halted state of the hard-coded run. -/
theorem halted_step_no_change_witness :
    haltedState.rule_index = -1 ∧ step Rules haltedState = .ok haltedState :=
  ⟨by decide, halted_step_no_change Rules haltedState (by decide)⟩

/-- C5: in a running configuration of a run whose cell under the head holds a
symbol other than 0 and 1, neither branch applies, the update variables still
hold the values copied by the previous pass, and the step returns the state
unchanged: head, rule index and the whole tape are what they were. -/
theorem undefined_symbol_step_no_change (rules : List Row) (n : Nat) (s : State) (c : Int)
    (hreach : iter rules n init = .ok s)
    (hrun : s.rule_index ≠ -1)
    (hcell : readCell s.configuration s.head_index = .ok c)
    (h0 : c ≠ 0) (h1 : c ≠ 1) :
    step rules s = .ok s ∧
      s.new_head_index = some s.head_index ∧
      s.new_rule_index = some s.rule_index ∧
      s.new_configuration = some s.configuration := by
  rcases (reach_inv hreach).2 with rfl | hsync
  · rw [init_cell] at hcell
    cases hcell
    exact absurd rfl h0
  · rw [step_other hrun hcell h0 h1]
    exact ⟨update_of_synced hsync, hsync⟩

/-- C5 witness: `writesTwo` after two steps stands on a cell holding 2. -/
theorem undefined_symbol_step_no_change_witness :
    iter writesTwo 2 init = .ok onTwo ∧ onTwo.rule_index ≠ -1 ∧
    readCell onTwo.configuration onTwo.head_index = .ok 2 ∧
    (step writesTwo onTwo = .ok onTwo ∧
      onTwo.new_head_index = some onTwo.head_index ∧
      onTwo.new_rule_index = some onTwo.rule_index ∧
      onTwo.new_configuration = some onTwo.configuration) :=
  ⟨by decide, by decide, by decide,
    undefined_symbol_step_no_change writesTwo 2 onTwo 2 (by decide) (by decide) (by decide)
      (by decide) (by decide)⟩

/-- C2: the hard-coded table, started from the initial variables (41 blank
cells, head 20, rule 0), is in the halted state after 107 steps, with the tape
holding 1 exactly in cells 17..28 and 30; after every smaller number of steps
the run is defined and its rule index is not -1. -/
theorem hardcoded_run_halts_after_107 :
    init.head_index = 20 ∧ init.rule_index = 0 ∧
    init.configuration = List.replicate 41 0 ∧
    iter Rules 107 init = .ok haltedState ∧
    haltedState.rule_index = -1 ∧
    (∀ k < 107, ∃ t, iter Rules k init = .ok t ∧ t.rule_index ≠ -1) ∧
    haltedState.configuration.length = 41 ∧
    (∀ i : Nat, i < 41 →
      haltedState.configuration[i]? =
        some (if (17 ≤ i ∧ i ≤ 28) ∨ i = 30 then 1 else 0)) := by
  refine ⟨by decide, by decide, by decide, by decide, by decide, ?_, by decide, by decide⟩
  intro k hk
  have hall : holdsAlong (fun s => decide (s.rule_index ≠ -1)) Rules 106 init = true := by
    decide
  obtain ⟨t, ht, hp⟩ := holdsAlong_iter hall k (by omega)
  exact ⟨t, ht, of_decide_eq_true hp⟩

/-- C3 (evaluation at the halted tape of the hard-coded run): the scans find
`ix_start = 17` and `ix_end = 30`, and the loop `i < ix_end + 3` prints the 19
cells of `[14, 32]`, not the 20 cells of the closed interval `[14, 33]`. -/
theorem extract_prints_two_cells_after_last :
    ∃ e, extract haltedState.configuration = .ok e ∧
      e.ix_start = 17 ∧ e.ix_end = 30 ∧
      e.printed = [0, 0, 0, 1, 1, 1, 1, 1, 1, 1, 1, 1, 1, 1, 1, 0, 1, 0, 0] ∧
      e.printed.map some =
        cellsOfClosedInterval haltedState.configuration (e.ix_start - 3) (e.ix_end + 2) ∧
      e.printed.map some ≠
        cellsOfClosedInterval haltedState.configuration (e.ix_start - 3) (e.ix_end + 3) ∧
      (e.printed.length : Int) = e.ix_end - e.ix_start + 6 := by
  refine ⟨⟨17, 30, [0, 0, 0, 1, 1, 1, 1, 1, 1, 1, 1, 1, 1, 1, 1, 0, 1, 0, 0]⟩, ?_,
    rfl, rfl, rfl, by decide, by decide, by decide⟩
  simp [extract, scanUp, scanDown, printLoop, readCell, haltedState, total_cells,
    screen_cells, offscreen_cells]

/-- C6 (evaluation at an all-blank halted tape): the table `haltBlank` halts
after one step on a tape of 41 blanks, and on that tape the first scan runs up
to index 41 = `total_cells`, a subscript outside the array; no empty case is
reported. -/
theorem extract_blank_tape_reads_past_end :
    iter haltBlank 1 init = .ok blankHalted ∧
    blankHalted.rule_index = -1 ∧
    (∀ x ∈ blankHalted.configuration, x = 0) ∧
    scanUp blankHalted.configuration 0 = .fault (.tapeIndex total_cells) ∧
    extract blankHalted.configuration = .fault (.tapeIndex 41) := by
  refine ⟨by decide, by decide, by decide, ?_, ?_⟩
  · simp [scanUp, readCell, blankHalted, total_cells, screen_cells, offscreen_cells,
      List.replicate]
  · simp [extract, scanUp, readCell, blankHalted, total_cells, screen_cells, offscreen_cells,
      List.replicate]

/-- C7, refuted as stated: after 21 steps of a table that always moves right
the head index is -1; the read of the cell under the head is then not a
successful read of the blank 0, and the step yields no next state. -/
theorem read_outside_array_not_blank :
    iter alwaysRight 21 init = .ok offTape ∧
    offTape.rule_index ≠ -1 ∧
    offTape.head_index < 0 ∧
    readCell offTape.configuration offTape.head_index ≠ .ok 0 ∧
    ∀ t, step alwaysRight offTape ≠ .ok t := by
  refine ⟨by decide, by decide, by decide, by decide, ?_⟩
  intro t ht
  have hf : step alwaysRight offTape = .fault (.tapeIndex (-1)) := by decide
  rw [hf] at ht
  cases ht

/-- C7 as amended: in a running configuration whose head index lies outside
the tape array, the read `configuration[head_index]` is a subscript outside the
array and the step has no defined result. -/
theorem step_outside_array_faults (rules : List Row) (s : State)
    (hrun : s.rule_index ≠ -1)
    (hout : s.head_index < 0 ∨ total_cells ≤ s.head_index) :
    readCell s.configuration s.head_index = .fault (.tapeIndex s.head_index) ∧
    step rules s = .fault (.tapeIndex s.head_index) :=
  ⟨readCell_outside hout, step_fault hrun (readCell_outside hout)⟩

/-- C7 witness (amended claim): the head at index -1. -/
theorem step_outside_array_faults_witness :
    offTape.rule_index ≠ -1 ∧
    (offTape.head_index < 0 ∨ total_cells ≤ offTape.head_index) ∧
    (readCell offTape.configuration offTape.head_index =
        .fault (.tapeIndex offTape.head_index) ∧
      step alwaysRight offTape = .fault (.tapeIndex offTape.head_index)) :=
  ⟨by decide, by decide,
    step_outside_array_faults alwaysRight offTape (by decide) (by decide)⟩

/-- C8: for every state of a run, (a) a successful step from it while running
has the head inside the tape array and leaves every cell other than the one
under the head unchanged, and (b) a cell of the array that was under the head
at none of the steps taken so far still holds the blank 0. -/
theorem step_frame (rules : List Row) (n : Nat) (s : State)
    (hreach : iter rules n init = .ok s) :
    (∀ t, s.rule_index ≠ -1 → step rules s = .ok t →
      (0 ≤ s.head_index ∧ s.head_index < total_cells) ∧
      ∀ i : Nat, (i : Int) ≠ s.head_index → t.configuration[i]? = s.configuration[i]?) ∧
    (∀ i : Nat, (i : Int) < total_cells →
      (∀ k < n, ∀ u, iter rules k init = .ok u → u.head_index ≠ i) →
      s.configuration[i]? = some 0) := by
  refine ⟨?_, fun i hi hnever => untouched_blank hreach hi hnever⟩
  intro t hrun hstep
  refine ⟨?_, fun i hi => frame_reachable hreach hstep i hi⟩
  cases hcell : readCell s.configuration s.head_index with
  | fault f =>
    rw [step_fault hrun hcell] at hstep
    cases hstep
  | ok c => exact (readCell_ok_iff.mp hcell).1

/-- C8 witness: the hard-coded run after its first step. -/
theorem step_frame_witness :
    iter Rules 1 init = .ok afterOne ∧
    ((∀ t, afterOne.rule_index ≠ -1 → step Rules afterOne = .ok t →
      (0 ≤ afterOne.head_index ∧ afterOne.head_index < total_cells) ∧
      ∀ i : Nat, (i : Int) ≠ afterOne.head_index →
        t.configuration[i]? = afterOne.configuration[i]?) ∧
    (∀ i : Nat, (i : Int) < total_cells →
      (∀ k < 1, ∀ u, iter Rules k init = .ok u → u.head_index ≠ i) →
      afterOne.configuration[i]? = some 0)) :=
  ⟨by decide, step_frame Rules 1 afterOne (by decide)⟩

/-- Invariant of runs of a valid table: the rule index is -1 or a row index
and the tape holds only the symbols 0 and 1. -/
theorem valid_table_inv {rules : List Row} (hne : rules ≠ []) (hvalid : ValidTable rules)
    {n : Nat} {s : State} (hreach : iter rules n init = .ok s) :
    (s.rule_index = -1 ∨ (0 ≤ s.rule_index ∧ s.rule_index < rules.length)) ∧
    (∀ x ∈ s.configuration, x = 0 ∨ x = 1) := by
  induction n generalizing s with
  | zero =>
    simp only [iter, Outcome.ok.injEq] at hreach
    subst hreach
    refine ⟨Or.inr ⟨by decide, ?_⟩, ?_⟩
    · have : 0 < rules.length := List.length_pos.mpr hne
      show (0 : Int) < rules.length
      omega
    · intro x hx
      exact Or.inl (List.eq_of_mem_replicate hx)
  | succ n ih =>
    obtain ⟨u, hu, hstep⟩ := iter_succ hreach
    obtain ⟨hrule, hsym⟩ := ih hu
    by_cases hrun : u.rule_index = -1
    · rw [step_halted hrun] at hstep
      cases hstep
      exact ⟨hrule, hsym⟩
    · rcases step_ok_cases hrun hstep with ⟨row, hrow, -, hc, hr, -⟩ | ⟨row, hrow, -, hc, hr, -⟩ |
        ⟨c, hcell, h0, h1, -, -, -⟩
      · have hmem : row ∈ rules :=
          List.getElem?_mem (ruleRow_ok_iff.mp hrow).2
        obtain ⟨hw, -, -, -, hn, -⟩ := hvalid row hmem
        refine ⟨by rw [hr]; exact hn, ?_⟩
        intro x hx
        rw [hc] at hx
        rcases List.mem_or_eq_of_mem_set hx with hx | hx
        · exact hsym x hx
        · rw [hx]; exact hw
      · have hmem : row ∈ rules :=
          List.getElem?_mem (ruleRow_ok_iff.mp hrow).2
        obtain ⟨-, hw, -, -, -, hn⟩ := hvalid row hmem
        refine ⟨by rw [hr]; exact hn, ?_⟩
        intro x hx
        rw [hc] at hx
        rcases List.mem_or_eq_of_mem_set hx with hx | hx
        · exact hsym x hx
        · rw [hx]; exact hw
      · have hx : c ∈ u.configuration :=
          List.getElem?_mem (readCell_ok_iff.mp hcell).2
        rcases hsym c hx with h | h
        · exact absurd h h0
        · exact absurd h h1

/-- C9: for a table with at least one row (a C++ array has one) whose write and
move entries are 0 or 1 and whose next-rule entries are -1 or row indices,
every state of a run from the initial variables has `rule_index` equal to -1
or a row index and only 0 and 1 on the tape; and while it is running with the
head inside the array, the cell read is 0 or 1, the row lookup succeeds and
the step is defined. -/
theorem valid_table_run_invariant (rules : List Row) (n : Nat) (s : State)
    (hne : rules ≠ []) (hvalid : ValidTable rules)
    (hreach : iter rules n init = .ok s) :
    (s.rule_index = -1 ∨ (0 ≤ s.rule_index ∧ s.rule_index < rules.length)) ∧
    (∀ x ∈ s.configuration, x = 0 ∨ x = 1) ∧
    (s.rule_index ≠ -1 → 0 ≤ s.head_index ∧ s.head_index < total_cells →
      ∃ c row t, readCell s.configuration s.head_index = .ok c ∧ (c = 0 ∨ c = 1) ∧
        ruleRow rules s.rule_index = .ok row ∧ step rules s = .ok t) := by
  obtain ⟨hrule, hsym⟩ := valid_table_inv hne hvalid hreach
  refine ⟨hrule, hsym, ?_⟩
  intro hrun hhead
  obtain ⟨c, hcell, hget⟩ := readCell_inside _ _ hhead (reach_inv hreach).1
  have hc : c = 0 ∨ c = 1 := hsym c (List.getElem?_mem hget)
  have hr : 0 ≤ s.rule_index ∧ s.rule_index < rules.length := by
    rcases hrule with h | h
    · exact absurd h hrun
    · exact h
  obtain ⟨row, hrow, hmem⟩ := ruleRow_inside hr
  obtain ⟨-, -, hm0, hm1, -, -⟩ := hvalid row hmem
  rcases hc with hc | hc
  · subst hc
    obtain ⟨t, ht, -⟩ := update_branch s (s.configuration.set s.head_index.toNat (row 1))
      (row 2) (row 3) hm0
    exact ⟨0, row, t, hcell, Or.inl rfl, hrow, by rw [step_zero hrun hrow hcell]; exact ht⟩
  · subst hc
    obtain ⟨t, ht, -⟩ := update_branch s (s.configuration.set s.head_index.toNat (row 4))
      (row 5) (row 6) hm1
    exact ⟨1, row, t, hcell, Or.inr rfl, hrow, by rw [step_one hrun hrow hcell]; exact ht⟩

theorem Rules_valid : ValidTable Rules := by
  unfold ValidTable
  decide

/-- C9 witness: the hard-coded table is valid; its run after one step. -/
theorem valid_table_run_invariant_witness :
    Rules ≠ [] ∧ ValidTable Rules ∧ iter Rules 1 init = .ok afterOne ∧
    ((afterOne.rule_index = -1 ∨
        (0 ≤ afterOne.rule_index ∧ afterOne.rule_index < Rules.length)) ∧
    (∀ x ∈ afterOne.configuration, x = 0 ∨ x = 1) ∧
    (afterOne.rule_index ≠ -1 → 0 ≤ afterOne.head_index ∧ afterOne.head_index < total_cells →
      ∃ c row t, readCell afterOne.configuration afterOne.head_index = .ok c ∧
        (c = 0 ∨ c = 1) ∧
        ruleRow Rules afterOne.rule_index = .ok row ∧ step Rules afterOne = .ok t)) :=
  ⟨by decide, Rules_valid, by decide,
    valid_table_run_invariant Rules 1 afterOne (by decide) Rules_valid (by decide)⟩

/-- C10: in the run of the hard-coded table every state up to and including the
halted one (steps 0..107) is defined and has its head index within 17..30,
hence inside `[0, total_cells)`; and on the halted tape the extraction
succeeds, with the printed index range `[ix_start - 3, ix_end + 3)` inside
`[0, total_cells)`. -/
theorem hardcoded_run_stays_in_bounds :
    (∀ k ≤ 107, ∃ t, iter Rules k init = .ok t ∧
      (17 ≤ t.head_index ∧ t.head_index ≤ 30) ∧
      (0 ≤ t.head_index ∧ t.head_index < total_cells)) ∧
    iter Rules 107 init = .ok haltedState ∧
    ∃ e, extract haltedState.configuration = .ok e ∧
      0 ≤ e.ix_start - 3 ∧ e.ix_end + 3 ≤ total_cells := by
  refine ⟨?_, by decide, ?_⟩
  · intro k hk
    have hall : holdsAlong (fun s => decide (17 ≤ s.head_index ∧ s.head_index ≤ 30))
        Rules 107 init = true := by
      decide
    obtain ⟨t, ht, hp⟩ := holdsAlong_iter hall k hk
    have hb : 17 ≤ t.head_index ∧ t.head_index ≤ 30 := of_decide_eq_true hp
    have : total_cells = 41 := by decide
    exact ⟨t, ht, hb, by omega, by omega⟩
  · refine ⟨⟨17, 30, [0, 0, 0, 1, 1, 1, 1, 1, 1, 1, 1, 1, 1, 1, 1, 0, 1, 0, 0]⟩, ?_,
      by decide, by decide⟩
    simp [extract, scanUp, scanDown, printLoop, readCell, haltedState, total_cells,
      screen_cells, offscreen_cells]

end TuringSFML
